import Mathlib

/-!
# Verification of the SpydarSense CSI/bitrate alignment-and-feature pipeline

Shallow embedding of the data-processing functions of
`app/src/main/java/com/example/spydarsense/util/utils.py`.

Modelling conventions:
* Floating-point timestamps, magnitudes and byte counts are modelled as
  exact rationals (`ℚ`); the structural properties under scrutiny (row
  counts, bucket membership, fill policy, join cardinality) are those of
  the exact arithmetic the spec describes.
* A pandas `DataFrame` is a list of rows; possibly-missing cells (NaN)
  are `Option ℚ`.
* `numpy.round` is round-half-to-even; `np.arange`, `np.linspace`
  (with integer truncation) and pandas `groupby`/`reindex`/`sort_values`
  are embedded step by step below.
* Python exceptions are `Except String`; in-place mutation of the input
  frame by `calculate_bitrate_and_align` is made explicit by returning
  the mutated frame alongside the result.
-/

namespace SpydarSense

/-- `numpy.round` at zero decimals: round half to even. -/
def roundHalfEven (q : ℚ) : ℤ :=
  let f := ⌊q⌋
  let r := q - (f : ℚ)
  if r < 1/2 then f
  else if 1/2 < r then f + 1
  else if f % 2 = 0 then f else f + 1

/-- The grid timestamp a raw timestamp is assigned to:
`np.round(t / time_interval) * time_interval` (utils.py lines 48 and 99). -/
def roundedTs (t dt : ℚ) : ℚ := (roundHalfEven (t / dt) : ℚ) * dt

/-- `np.arange lo hi step`: element `k` is `lo + k*step`, and the length is
`⌈(hi - lo)/step⌉` (for positive step). -/
def arange (lo hi step : ℚ) : List ℚ :=
  (List.range (⌈(hi - lo) / step⌉).toNat).map (fun (k : ℕ) => lo + (k : ℚ) * step)

/-- The full timeline `np.arange(rounded.min(), rounded.max() + dt, dt)`
built by both aligners (utils.py lines 63 and 107).  `np.min`/`np.max` of
an empty array raise, so the callers below guard the empty case. -/
def timelineOf (rounded : List ℚ) (dt : ℚ) : List ℚ :=
  match rounded with
  | [] => []
  | r :: rs => arange (rs.foldl min r) (rs.foldl max r + dt) dt

/-- `np.linspace 0 (total-1) n` cast to `int` (truncation towards zero;
all values are nonnegative here), as in utils.py line 42. -/
def linspaceIndices (total n : ℕ) : List ℕ :=
  if n = 0 then []
  else if n = 1 then [0]
  else (List.range n).map (fun (k : ℕ) =>
    (⌊((k : ℚ) * ((total : ℚ) - 1)) / ((n : ℚ) - 1)⌋).toNat)

/-- Rows reordered so the timestamp key is nondecreasing
(`DataFrame.sort_values("timestamp")`). -/
def sortByTs {β : Type} (l : List (ℚ × β)) : List (ℚ × β) :=
  l.insertionSort (fun a b => a.1 ≤ b.1)

/-- The sorted list of distinct group keys produced by pandas `groupby`. -/
def groupKeys (ts : List ℚ) : List ℚ :=
  (ts.insertionSort (fun a b => a ≤ b)).dedup

/-- Association-list lookup with exact key equality, modelling `reindex`
row retrieval from the grouped frame. -/
def qlookup {α : Type} (g : ℚ) : List (ℚ × α) → Option α
  | [] => none
  | p :: ps => if p.1 = g then some p.2 else qlookup g ps

/-- Per-column arithmetic mean over the rows of a group
(`groupby("timestamp").mean()`). -/
def meanCols (ncols : ℕ) (rows : List (List ℚ)) : List ℚ :=
  (List.range ncols).map (fun j =>
    ((rows.map (fun r => r.getD j 0)).sum) / (rows.length : ℚ))

/-- Per-group aggregation: column means, or the first row in original
order (`groupby("timestamp").mean()` / `.first()`). -/
def aggCols (method : String) (ncols : ℕ) (rows : List (List ℚ)) : List ℚ :=
  if method = "mean" then meanCols ncols rows
  else match rows with
    | [] => List.replicate ncols 0
    | r :: _ => r

/-- Message of the `ValueError` raised at utils.py line 60. -/
def aggregationMethodError : String :=
  "aggregation_method must be either mean or first"

/-- Message of the `ValueError` numpy raises when `.min()` is taken over
an empty array (utils.py line 63 on empty input). -/
def emptyReductionError : String :=
  "zero-size array to reduction operation minimum"

/-- The subcarrier-subsetting test of utils.py line 40: a target count was
given and is smaller than `csi_data.shape[1]`. -/
def alignKeep (csi_data : List (List ℚ)) (n_subcarriers : Option ℕ) : Bool :=
  match n_subcarriers with
  | some n => decide (n < (csi_data.headD []).length)
  | none => false

/-- The CSI matrix after the optional subcarrier subsetting of utils.py
lines 40-45 (`csi_data[:, indices]`). -/
def alignData (csi_data : List (List ℚ)) (n_subcarriers : Option ℕ) : List (List ℚ) :=
  if alignKeep csi_data n_subcarriers then
    csi_data.map (fun r =>
      (linspaceIndices (csi_data.headD []).length (n_subcarriers.getD 0)).map
        (fun i => r.getD i 0))
  else csi_data

/-- The number of value columns of the aligned CSI grid. -/
def alignNcols (csi_data : List (List ℚ)) (n_subcarriers : Option ℕ) : ℕ :=
  if alignKeep csi_data n_subcarriers then n_subcarriers.getD 0
  else (csi_data.headD []).length

/-- The aligned CSI grid built at utils.py lines 54-68: group the rounded
timestamps, aggregate each group (mean or first), then reindex over the
complete timeline, missing buckets becoming all-NaN rows. -/
def alignGrid (csi_data : List (List ℚ)) (csi_timestamps : List ℚ)
    (time_interval : ℚ) (n_subcarriers : Option ℕ) (aggregation_method : String) :
    List (ℚ × List (Option ℚ)) :=
  let rounded := csi_timestamps.map (fun t => roundedTs t time_interval)
  let grouped := (groupKeys rounded).map (fun g =>
    (g, aggCols aggregation_method (alignNcols csi_data n_subcarriers)
          (((rounded.zip (alignData csi_data n_subcarriers)).filter
              (fun p => decide (p.1 = g))).map Prod.snd)))
  (timelineOf rounded time_interval).map (fun g =>
    match qlookup g grouped with
    | some vs => (g, vs.map some)
    | none => (g, List.replicate (alignNcols csi_data n_subcarriers) none))

/-- Embedding of `align_csi_magnitude` (utils.py lines 7-70): optional
even-spaced subcarrier subsetting, half-even rounding of timestamps to
the grid, groupby aggregation (mean/first), then reindexing over the
complete `np.arange` timeline.  An unsupported aggregation method raises
before the timeline is built; `np.min` raises on an empty array. -/
def align_csi_magnitude (csi_data : List (List ℚ)) (csi_timestamps : List ℚ)
    (time_interval : ℚ) (n_subcarriers : Option ℕ) (aggregation_method : String) :
    Except String (List (ℚ × List (Option ℚ))) :=
  if aggregation_method ≠ "mean" ∧ aggregation_method ≠ "first" then
    Except.error aggregationMethodError
  else if (csi_timestamps.map (fun t => roundedTs t time_interval)).isEmpty then
    Except.error emptyReductionError
  else
    Except.ok (alignGrid csi_data csi_timestamps time_interval n_subcarriers
      aggregation_method)

/-- The caller's bitrate frame after `calculate_bitrate_and_align` ran
(utils.py lines 96-100): the length column has `header_adjust`
subtracted and a rounded-timestamp column has been added, in place. -/
def adjustedWithTs (bitrate_df : List (ℚ × ℚ)) (time_interval header_adjust : ℚ) :
    List (ℚ × ℚ × ℚ) :=
  bitrate_df.map (fun p => (p.1, p.2 - header_adjust, roundedTs p.1 time_interval))

/-- The aligned bitrate grid built at utils.py lines 102-109: sum the
adjusted lengths per rounded timestamp, then reindex over the complete
timeline, missing buckets becoming NaN. -/
def bitrateGrid (bitrate_df : List (ℚ × ℚ)) (time_interval header_adjust : ℚ) :
    List (ℚ × Option ℚ) :=
  let rounded := bitrate_df.map (fun p => roundedTs p.1 time_interval)
  let grouped := (groupKeys rounded).map (fun g =>
    (g, (((adjustedWithTs bitrate_df time_interval header_adjust).filter
          (fun r => decide (r.2.2 = g))).map (fun r => r.2.1)).sum))
  (timelineOf rounded time_interval).map (fun g =>
    match qlookup g grouped with
    | some v => (g, some v)
    | none => (g, (none : Option ℚ)))

/-- Embedding of `calculate_bitrate_and_align` (utils.py lines 72-111).
The first component of the result is the caller's frame after the call
(the mutation of lines 96-100 made explicit); the second is the aligned
`(timestamp, bitrate_bytes)` grid, or the error `np.min` raises on an
empty array. -/
def calculate_bitrate_and_align (bitrate_df : List (ℚ × ℚ))
    (time_interval header_adjust : ℚ) :
    List (ℚ × ℚ × ℚ) × Except String (List (ℚ × Option ℚ)) :=
  (adjustedWithTs bitrate_df time_interval header_adjust,
    if (bitrate_df.map (fun p => roundedTs p.1 time_interval)).isEmpty then
      Except.error emptyReductionError
    else Except.ok (bitrateGrid bitrate_df time_interval header_adjust))

/-- Python `range(0, m, s)` over naturals (the uses below have `s ≥ 1`). -/
def rangeStep (m s : ℕ) : List ℕ :=
  (List.range ((m + s - 1) / s)).map (fun k => k * s)

/-- The window start indices `range(0, n - window_size + 1, stride)` of
utils.py lines 145 and 185 (truncated subtraction matches the empty
range when `n < window_size`). -/
def windowStarts (n w s : ℕ) : List ℕ := rangeStep (n + 1 - w) s

/-- `np.round(x, 2)`: half-even rounding to two decimal digits. -/
def round2 (q : ℚ) : ℚ := (roundHalfEven (q * 100) : ℚ) / 100

/-- Embedding of `csi_feature_extraction` (utils.py lines 113-156).  The
eigenvalue computed by the external `sklearn.decomposition.PCA`
collaborator is abstracted as the parameter `pcaVar` applied to the
window's row matrix; the windowing, the centre-timestamp selection and
the 2-decimal rounding are embedded from the source. -/
def csi_feature_extraction {α : Type} (pcaVar : List (List α) → ℚ)
    (csi_aligned : List (ℚ × List α)) (window_size stride : ℕ) : List (ℚ × ℚ) :=
  (windowStarts csi_aligned.length window_size stride).map (fun start =>
    ((csi_aligned.map Prod.fst).getD (start + window_size / 2) 0,
      round2 (pcaVar (((csi_aligned.map Prod.snd).drop start).take window_size))))

/-- pandas `Series.median`: NaN-skipping callers pass the known values;
mean of the two middle order statistics for even counts. -/
def medianOfList (l : List ℚ) : Option ℚ :=
  let s := l.insertionSort (fun a b => a ≤ b)
  if s.length = 0 then none
  else if s.length % 2 = 1 then s.get? (s.length / 2)
  else some ((s.getD (s.length / 2 - 1) 0 + s.getD (s.length / 2) 0) / 2)

/-- Embedding of `median_filter_bitrate` (utils.py lines 158-192):
sort by timestamp, slide windows, emit the window median (pandas median
skips missing cells) at the window's centre timestamp. -/
def median_filter_bitrate (bitrate_aligned : List (ℚ × Option ℚ))
    (window_size stride : ℕ) : List (ℚ × Option ℚ) :=
  let sorted := sortByTs bitrate_aligned
  (windowStarts sorted.length window_size stride).map (fun start =>
    ((sorted.map Prod.fst).getD (start + window_size / 2) 0,
      medianOfList ((((sorted.map Prod.snd).drop start).take window_size).filterMap id)))

/-- First-some choice on optional cells (`Option.orElse` without the
thunk, for smoother rewriting). -/
def oor (a b : Option ℚ) : Option ℚ :=
  match a with
  | some v => some v
  | none => b

/-- One row of a forward fill: each cell falls back to the carried
last-known value of its column.  A missing carry entry behaves like
`none`. -/
def ffillRow : List (Option ℚ) → List (Option ℚ) → List (Option ℚ)
  | [], _ => []
  | c :: cs, [] => c :: ffillRow cs []
  | c :: cs, l :: ls => oor c l :: ffillRow cs ls

/-- `DataFrame.ffill()` over the listed rows, threading the last-known
value of every column through the carry row. -/
def ffillRows : List (Option ℚ) → List (List (Option ℚ)) → List (List (Option ℚ))
  | _, [] => []
  | carry, r :: rs =>
      let r2 := ffillRow r carry
      r2 :: ffillRows r2 rs

/-- `DataFrame.bfill()`: a forward fill run over the reversed rows. -/
def bfillRows (rows : List (List (Option ℚ))) : List (List (Option ℚ)) :=
  (ffillRows [] rows.reverse).reverse

/-- Embedding of `fill_missing_csi` (utils.py lines 194-215): sort by
timestamp, then `ffill().bfill()` on the subcarrier columns. -/
def fill_missing_csi (csi_aligned : List (ℚ × List (Option ℚ))) :
    List (ℚ × List (Option ℚ)) :=
  let s := sortByTs csi_aligned
  (s.map Prod.fst).zip (bfillRows (ffillRows [] (s.map Prod.snd)))

/-- Embedding of `fill_missing_bitrate` (utils.py lines 217-238): sort by
timestamp, then `fillna(0)` on the bitrate column. -/
def fill_missing_bitrate (bitrate_aligned : List (ℚ × Option ℚ)) :
    List (ℚ × Option ℚ) :=
  (sortByTs bitrate_aligned).map (fun p => (p.1, some (p.2.getD 0)))

/-- The matched part of `pd.merge(..., on="timestamp")`: every pair of
rows with equal keys, in left-key order. -/
def innerRows (a b : List (ℚ × ℚ)) : List (ℚ × Option ℚ × Option ℚ) :=
  match a with
  | [] => []
  | p :: rest =>
      ((b.filter (fun q => decide (q.1 = p.1))).map
        (fun q => (p.1, some p.2, some q.2))) ++ innerRows rest b

/-- Left rows with no right match, kept by an outer merge with a missing
right cell. -/
def leftOnlyRows (a b : List (ℚ × ℚ)) : List (ℚ × Option ℚ × Option ℚ) :=
  (a.filter (fun p => !(b.any (fun q => decide (q.1 = p.1))))).map
    (fun p => (p.1, some p.2, none))

/-- Right rows with no left match, kept by an outer merge with a missing
left cell. -/
def rightOnlyRows (a b : List (ℚ × ℚ)) : List (ℚ × Option ℚ × Option ℚ) :=
  (b.filter (fun q => !(a.any (fun p => decide (p.1 = q.1))))).map
    (fun q => (q.1, none, some q.2))

/-- Embedding of `join_features` (utils.py lines 240-263): merge on the
timestamp key (inner keeps matched pairs only; outer additionally keeps
unmatched rows of either side with a missing cell), then sort ascending
by timestamp. -/
def join_features (csi_feature_df bitrate_filtered_df : List (ℚ × ℚ))
    (how : String) : List (ℚ × Option ℚ × Option ℚ) :=
  let matched := innerRows csi_feature_df bitrate_filtered_df
  let rows := if how = "outer" then
      matched ++ leftOnlyRows csi_feature_df bitrate_filtered_df
        ++ rightOnlyRows csi_feature_df bitrate_filtered_df
    else matched
  sortByTs rows

/-- Minimum of a list (`np.min`); the empty case is guarded by callers. -/
def listMin (l : List ℚ) : ℚ :=
  match l with
  | [] => 0
  | r :: rs => rs.foldl min r

/-- Maximum of a list (`np.max`); the empty case is guarded by callers. -/
def listMax (l : List ℚ) : ℚ :=
  match l with
  | [] => 0
  | r :: rs => rs.foldl max r

/-- Last non-missing value of a column segment (what a forward fill
carries out of the segment). -/
def lastKnown (l : List (Option ℚ)) : Option ℚ := (l.filterMap id).getLast?

/-- First non-missing value of a column segment (what a backward fill
carries back out of the segment). -/
def firstKnown (l : List (Option ℚ)) : Option ℚ := (l.filterMap id).head?

/-- Forward fill of a single column with a carried last-known value. -/
def ffillCol : Option ℚ → List (Option ℚ) → List (Option ℚ)
  | _, [] => []
  | carry, c :: cs => oor c carry :: ffillCol (oor c carry) cs

/-- Backward fill of a single column: forward fill of its reversal. -/
def bfillCol (l : List (Option ℚ)) : List (Option ℚ) :=
  (ffillCol none l.reverse).reverse

/-- Column `j` of a list of rows (missing rows read as missing cells). -/
def colJ (j : ℕ) (rows : List (List (Option ℚ))) : List (Option ℚ) :=
  rows.map (fun r => r.getD j none)

end SpydarSense

namespace SpydarSense

instance {β : Type} : IsTotal (ℚ × β) (fun a b => a.1 ≤ b.1) :=
  ⟨fun a b => le_total a.1 b.1⟩

instance {β : Type} : IsTrans (ℚ × β) (fun a b => a.1 ≤ b.1) :=
  ⟨fun _ _ _ h1 h2 => le_trans h1 h2⟩

/-! ## Windowing lemmas (utils.py lines 145 and 185) -/

theorem rangeStep_length (m s : ℕ) : (rangeStep m s).length = (m + s - 1) / s := by
  simp [rangeStep]

theorem rangeStep_getElem? (m s i : ℕ) (hi : i < (m + s - 1) / s) :
    (rangeStep m s)[i]? = some (i * s) := by
  simp [rangeStep, List.getElem?_map, List.getElem?_range hi]

theorem windowStarts_length (n w s : ℕ) (hw : 1 ≤ w) (hs : 1 ≤ s) :
    (windowStarts n w s).length = if n < w then 0 else (n - w) / s + 1 := by
  rw [windowStarts, rangeStep_length]
  by_cases h : n < w
  · have h0 : n + 1 - w = 0 := by omega
    rw [h0, if_pos h]
    exact Nat.div_eq_of_lt (by omega)
  · rw [if_neg h]
    have h1 : n + 1 - w + s - 1 = (n - w) + s := by omega
    rw [h1, Nat.add_div_right _ (by omega)]

theorem windowStarts_getElem? (n w s i : ℕ)
    (hi : i < (windowStarts n w s).length) :
    (windowStarts n w s)[i]? = some (i * s) := by
  rw [windowStarts] at hi ⊢
  rw [rangeStep_length] at hi
  exact rangeStep_getElem? _ _ _ hi

theorem windowStarts_start_le (n w s i : ℕ) (hw : 1 ≤ w) (hs : 1 ≤ s)
    (hi : i < (windowStarts n w s).length) : i * s + w ≤ n := by
  rw [windowStarts, rangeStep_length] at hi
  have hm : 1 ≤ n + 1 - w := by
    by_contra hc
    have h0 : n + 1 - w = 0 := by omega
    rw [h0] at hi
    have hz : (0 + s - 1) / s = 0 := Nat.div_eq_of_lt (by omega)
    omega
  have h3 : (i + 1) * s ≤ n + 1 - w + s - 1 :=
    (Nat.le_div_iff_mul_le (by omega)).mp hi
  rw [Nat.succ_mul] at h3
  omega

/-- Both reducers build rows of the shape
`(timestamps.getD (start + w/2) 0, value start)` over the window starts;
row `i` of such a construction carries the timestamp of input row
`i*s + w/2`. -/
theorem windowMap_fst {γ δ : Type} (l : List (ℚ × γ)) (w s : ℕ)
    (hw : 1 ≤ w) (hs : 1 ≤ s) (g : ℕ → δ) (i : ℕ)
    (hi : i < (windowStarts l.length w s).length) :
    (((windowStarts l.length w s).map
        (fun start => ((l.map Prod.fst).getD (start + w / 2) 0, g start)))[i]?).map Prod.fst
      = (l[i * s + w / 2]?).map Prod.fst := by
  rw [List.getElem?_map, windowStarts_getElem? _ _ _ _ hi]
  have hlt : i * s + w / 2 < l.length := by
    have hle := windowStarts_start_le l.length w s i hw hs hi
    have hhalf : w / 2 < w := Nat.div_lt_self (by omega) (by omega)
    omega
  simp [List.getD_eq_getElem?_getD, List.getElem?_eq_getElem hlt]

/-- Claim C2: both windowed reducers emit exactly
`max(0, floor((n-w)/s) + 1)` rows (stated with truncated naturals:
`0` when `n < w`, else `(n-w)/s + 1`), one per window start, and row `i`
carries the timestamp of the input row at index `i*s + w/2`; in
particular `n < w` yields zero rows. -/
theorem c2_windowed_reducers_shape {α : Type} (pcaVar : List (List α) → ℚ)
    (csi : List (ℚ × List α)) (br : List (ℚ × Option ℚ)) (w s : ℕ)
    (hw : 1 ≤ w) (hs : 1 ≤ s)
    (hbr : List.Sorted (fun a b => a.1 ≤ b.1) br) :
    ((csi_feature_extraction pcaVar csi w s).length
        = if csi.length < w then 0 else (csi.length - w) / s + 1) ∧
    (∀ i, i < (csi_feature_extraction pcaVar csi w s).length →
       ((csi_feature_extraction pcaVar csi w s)[i]?).map Prod.fst
         = (csi[i * s + w / 2]?).map Prod.fst) ∧
    ((median_filter_bitrate br w s).length
        = if br.length < w then 0 else (br.length - w) / s + 1) ∧
    (∀ i, i < (median_filter_bitrate br w s).length →
       ((median_filter_bitrate br w s)[i]?).map Prod.fst
         = (br[i * s + w / 2]?).map Prod.fst) := by
  have hsort : sortByTs br = br := hbr.insertionSort_eq
  refine ⟨?_, ?_, ?_, ?_⟩
  · rw [csi_feature_extraction, List.length_map, windowStarts_length _ _ _ hw hs]
  · intro i hi
    rw [csi_feature_extraction] at hi ⊢
    rw [List.length_map] at hi
    exact windowMap_fst csi w s hw hs _ i hi
  · rw [median_filter_bitrate, hsort, List.length_map, windowStarts_length _ _ _ hw hs]
  · intro i hi
    rw [median_filter_bitrate, hsort] at hi ⊢
    rw [List.length_map] at hi
    exact windowMap_fst br w s hw hs _ i hi

/-- Witness for C2 at the spec scenario: `window_size=3, stride=1` on the
five bitrate rows `[10,20,30,40,50]` gives three output rows centred at
indices 1, 2, 3; a three-row CSI table with `window_size=3` gives one. -/
theorem c2_witness :
    ((csi_feature_extraction (fun _ => (0:ℚ))
        [((1:ℚ), [(1:ℚ)]), (2, [2]), (3, [3])] 3 1).length
      = if ([((1:ℚ), [(1:ℚ)]), (2, [2]), (3, [3])] : List (ℚ × List ℚ)).length < 3 then 0
        else (([((1:ℚ), [(1:ℚ)]), (2, [2]), (3, [3])] : List (ℚ × List ℚ)).length - 3) / 1 + 1) ∧
    ((median_filter_bitrate
        [((1:ℚ), some 10), (2, some 20), (3, some 30), (4, some 40), (5, some 50)] 3 1).length
      = if ([((1:ℚ), some 10), (2, some 20), (3, some 30), (4, some 40), (5, some 50)]
            : List (ℚ × Option ℚ)).length < 3 then 0
        else (([((1:ℚ), some 10), (2, some 20), (3, some 30), (4, some 40), (5, some 50)]
            : List (ℚ × Option ℚ)).length - 3) / 1 + 1) ∧
    (((median_filter_bitrate
        [((1:ℚ), some 10), (2, some 20), (3, some 30), (4, some 40), (5, some 50)] 3 1)[0]?).map Prod.fst
      = (([((1:ℚ), some 10), (2, some 20), (3, some 30), (4, some 40), (5, some 50)]
            : List (ℚ × Option ℚ))[0 * 1 + 3 / 2]?).map Prod.fst) := by
  have h1 := c2_windowed_reducers_shape (fun _ => (0:ℚ))
    [((1:ℚ), [(1:ℚ)]), (2, [2]), (3, [3])]
    [((1:ℚ), some 10), (2, some 20), (3, some 30), (4, some 40), (5, some 50)]
    3 1 (by decide) (by decide) (by decide)
  exact ⟨h1.1, h1.2.2.1, h1.2.2.2 0 (by rw [h1.2.2.1]; decide)⟩

/-! ## Claim C10: in-place mutation of the bitrate frame -/

/-- Claim C10: `calculate_bitrate_and_align` mutates its input frame:
after a call the caller's length column has `header_adjust` subtracted
and a rounded-timestamp column has been added, so feeding the mutated
frame back subtracts `header_adjust` twice. -/
theorem c10_calculate_bitrate_mutates_input (df : List (ℚ × ℚ)) (dt h : ℚ) :
    ((calculate_bitrate_and_align df dt h).1).map (fun r => (r.1, r.2.1))
      = df.map (fun p => (p.1, p.2 - h)) ∧
    ((calculate_bitrate_and_align df dt h).1).map (fun r => r.2.2)
      = df.map (fun p => roundedTs p.1 dt) ∧
    ((calculate_bitrate_and_align
        (((calculate_bitrate_and_align df dt h).1).map (fun r => (r.1, r.2.1)))
        dt h).1).map (fun r => r.2.1)
      = df.map (fun p => p.2 - h - h) := by
  refine ⟨?_, ?_, ?_⟩
  · simp [calculate_bitrate_and_align, adjustedWithTs, List.map_map, Function.comp]
  · simp [calculate_bitrate_and_align, adjustedWithTs, List.map_map, Function.comp]
  · simp [calculate_bitrate_and_align, adjustedWithTs, List.map_map, Function.comp]

/-! ## Claim C8: evenly spaced subcarrier selection -/

/-- Counterexample to C8 as stated: with one subcarrier requested out of
two available (`1 < 2`), `np.linspace(0, 1, 1, dtype=int)` selects only
index 0, so the last index `total - 1 = 1` is not among the selected
indices. -/
theorem c8_counterexample :
    1 < 2 ∧ linspaceIndices 2 1 = [0] ∧ (2 - 1) ∉ linspaceIndices 2 1 := by
  refine ⟨by decide, by decide, by decide⟩

/-- Claim C8 amended: whenever at least two subcarriers are requested and
fewer than are available, the selected indices are the integer
truncations of the linear interpolation over `[0, total-1]`, there are
exactly `n` of them, and both ends are preserved.  (As stated the claim
fails for a requested count of 1, which selects only index 0.) -/
theorem c8_linspace_even_spacing (total n : ℕ) (h2 : 2 ≤ n) (hlt : n < total) :
    (linspaceIndices total n).length = n ∧
    (∀ k, k < n → (linspaceIndices total n)[k]?
        = some ((⌊((k : ℚ) * ((total : ℚ) - 1)) / ((n : ℚ) - 1)⌋).toNat)) ∧
    (linspaceIndices total n).head? = some 0 ∧
    (linspaceIndices total n).getLast? = some (total - 1) := by
  have hn0 : n ≠ 0 := by omega
  have hn1 : n ≠ 1 := by omega
  have hform : linspaceIndices total n
      = (List.range n).map (fun (k : ℕ) =>
          (⌊((k : ℚ) * ((total : ℚ) - 1)) / ((n : ℚ) - 1)⌋).toNat) := by
    rw [linspaceIndices, if_neg hn0, if_neg hn1]
  have hlen : (linspaceIndices total n).length = n := by
    rw [hform]; simp
  have hget : ∀ k, k < n → (linspaceIndices total n)[k]?
      = some ((⌊((k : ℚ) * ((total : ℚ) - 1)) / ((n : ℚ) - 1)⌋).toNat) := by
    intro k hk
    rw [hform, List.getElem?_map, List.getElem?_range hk]
    rfl
  refine ⟨hlen, hget, ?_, ?_⟩
  · rw [List.head?_eq_getElem?, hget 0 (by omega)]
    norm_num
  · have hlast : (linspaceIndices total n).getLast?
        = (linspaceIndices total n)[n - 1]? := by
      rw [List.getLast?_eq_getElem?, hlen]
    rw [hlast, hget (n - 1) (by omega)]
    have hcast : ((n - 1 : ℕ) : ℚ) = (n : ℚ) - 1 := by
      push_cast [Nat.cast_sub (by omega : 1 ≤ n)]; ring
    have hne : ((n : ℚ) - 1) ≠ 0 := by
      have : (2 : ℚ) ≤ (n : ℚ) := by exact_mod_cast h2
      intro hc; nlinarith
    have hval : ((n - 1 : ℕ) : ℚ) * ((total : ℚ) - 1) / ((n : ℚ) - 1)
        = (total : ℚ) - 1 := by
      rw [hcast, mul_comm, mul_div_assoc, div_self hne, mul_one]
    rw [hval]
    have hcast2 : (total : ℚ) - 1 = ((total - 1 : ℕ) : ℚ) := by
      push_cast [Nat.cast_sub (by omega : 1 ≤ total)]; ring
    rw [hcast2, Int.floor_natCast]
    simp

/-- Witness for the amended C8: requesting 4 of 10 subcarriers selects
indices `[0, 3, 6, 9]`, preserving both ends. -/
theorem c8_witness :
    (linspaceIndices 10 4).length = 4 ∧
    (linspaceIndices 10 4).head? = some 0 ∧
    (linspaceIndices 10 4).getLast? = some (10 - 1) := by
  have h := c8_linspace_even_spacing 10 4 (by decide) (by decide)
  exact ⟨h.1, h.2.2.1, h.2.2.2⟩

/-! ## Single-column fill semantics -/

theorem oor_none_right (a : Option ℚ) : oor a none = a := by
  cases a <;> rfl

theorem oor_assoc (a b c : Option ℚ) : oor (oor a b) c = oor a (oor b c) := by
  cases a <;> cases b <;> rfl

theorem lastKnown_nil : lastKnown [] = none := rfl

theorem lastKnown_cons (c : Option ℚ) (l : List (Option ℚ)) :
    lastKnown (c :: l) = oor (lastKnown l) c := by
  cases c with
  | none =>
    have hstep : List.filterMap id (none :: l) = List.filterMap id l := by simp
    rw [oor_none_right, lastKnown, lastKnown, hstep]
  | some v =>
    have hstep : List.filterMap id (some v :: l) = v :: List.filterMap id l := by simp
    rw [lastKnown, lastKnown, hstep]
    cases h : List.filterMap id l with
    | nil => rfl
    | cons x xs =>
      rw [List.getLast?_cons_cons]
      obtain ⟨u, hu⟩ := Option.isSome_iff_exists.mp
        (List.getLast?_isSome.mpr (List.cons_ne_nil x xs))
      rw [hu]
      rfl

theorem firstKnown_cons (c : Option ℚ) (l : List (Option ℚ)) :
    firstKnown (c :: l) = oor c (firstKnown l) := by
  cases c <;> simp [firstKnown, oor, List.filterMap_cons]

theorem lastKnown_reverse (l : List (Option ℚ)) :
    lastKnown l.reverse = firstKnown l := by
  rw [lastKnown, firstKnown, List.filterMap_reverse, List.getLast?_reverse]

theorem lastKnown_eq_none_iff (l : List (Option ℚ)) :
    lastKnown l = none ↔ ∀ x ∈ l, x = none := by
  rw [lastKnown, List.getLast?_eq_none_iff, List.filterMap_eq_nil_iff]
  simp

theorem firstKnown_eq_none_iff (l : List (Option ℚ)) :
    firstKnown l = none ↔ ∀ x ∈ l, x = none := by
  rw [firstKnown, List.head?_eq_none_iff, List.filterMap_eq_nil_iff]
  simp

theorem lastKnown_concat_some (l : List (Option ℚ)) (v : ℚ) :
    lastKnown (l ++ [some v]) = some v := by
  rw [lastKnown, List.filterMap_append]
  simp [List.getLast?_concat]

theorem length_ffillCol (l : List (Option ℚ)) :
    ∀ carry, (ffillCol carry l).length = l.length := by
  induction l with
  | nil => intro carry; rfl
  | cons c cs ih => intro carry; simp [ffillCol, ih]

theorem length_bfillCol (l : List (Option ℚ)) :
    (bfillCol l).length = l.length := by
  rw [bfillCol, List.length_reverse, length_ffillCol, List.length_reverse]

theorem ffillCol_getElem? (l : List (Option ℚ)) :
    ∀ carry i, i < l.length →
      (ffillCol carry l)[i]? = some (oor (lastKnown (l.take (i + 1))) carry) := by
  induction l with
  | nil => intro carry i hi; simp at hi
  | cons c cs ih =>
    intro carry i hi
    cases i with
    | zero =>
      simp [ffillCol, List.take_succ, lastKnown_cons, lastKnown_nil, oor]
    | succ i =>
      have hi2 : i < cs.length := by simpa using hi
      have hstep : ffillCol carry (c :: cs) = oor c carry :: ffillCol (oor c carry) cs := rfl
      rw [hstep, List.getElem?_cons_succ, ih (oor c carry) i hi2,
        List.take_succ_cons, lastKnown_cons, oor_assoc]

theorem bfillCol_getElem? (l : List (Option ℚ)) (i : ℕ) (hi : i < l.length) :
    (bfillCol l)[i]? = some (firstKnown (l.drop i)) := by
  have hlen : (ffillCol none l.reverse).length = l.length := by
    rw [length_ffillCol, List.length_reverse]
  rw [bfillCol, List.getElem?_reverse (by rw [hlen]; exact hi), hlen]
  rw [ffillCol_getElem? l.reverse none (l.length - 1 - i)
    (by rw [List.length_reverse]; omega)]
  have harith : l.length - 1 - i + 1 = l.length - i := by omega
  rw [harith, List.take_reverse]
  have harith2 : l.length - (l.length - i) = i := by omega
  rw [harith2, lastKnown_reverse, oor_none_right]

theorem ffillCol_drop_of_none (k : ℕ) :
    ∀ l : List (Option ℚ), (∀ x ∈ l.take k, x = none) →
      (ffillCol none l).drop k = ffillCol none (l.drop k) := by
  induction k with
  | zero => intro l _; rfl
  | succ k ih =>
    intro l h
    cases l with
    | nil => rfl
    | cons c cs =>
      have hc : c = none := h c (by simp [List.take_cons])
      subst hc
      have hcs : ∀ x ∈ cs.take k, x = none := by
        intro x hx
        exact h x (by simp [List.take_cons]; exact Or.inr hx)
      simp only [ffillCol, oor, List.drop_succ_cons]
      exact ih cs hcs

theorem firstKnown_ffillCol (l : List (Option ℚ)) :
    firstKnown (ffillCol none l) = firstKnown l := by
  induction l with
  | nil => rfl
  | cons c cs ih =>
    cases c with
    | some v => simp [ffillCol, oor, firstKnown_cons]
    | none => simp [ffillCol, oor, firstKnown_cons, ih]

/-- Semantics of forward-then-backward fill on one column: each cell
becomes the last known value at or before it, else the next known value
after it, else stays missing. -/
theorem ffbf_getElem? (l : List (Option ℚ)) (i : ℕ) (hi : i < l.length) :
    (bfillCol (ffillCol none l))[i]?
      = some (oor (lastKnown (l.take (i + 1))) (firstKnown (l.drop (i + 1)))) := by
  have hlen : (ffillCol none l).length = l.length := length_ffillCol l none
  rw [bfillCol_getElem? _ i (by rw [hlen]; exact hi)]
  have hdrop : (ffillCol none l).drop i
      = (ffillCol none l)[i] :: (ffillCol none l).drop (i + 1) :=
    List.drop_eq_getElem_cons (by rw [hlen]; exact hi)
  have hcell : (ffillCol none l)[i]? = some (oor (lastKnown (l.take (i + 1))) none) :=
    ffillCol_getElem? l none i hi
  rw [oor_none_right] at hcell
  have hcell2 : (ffillCol none l)[i] = lastKnown (l.take (i + 1)) := by
    have := List.getElem?_eq_getElem (show i < (ffillCol none l).length by rw [hlen]; exact hi)
    rw [this] at hcell
    exact Option.some_injective _ hcell
  rw [hdrop, firstKnown_cons, hcell2]
  cases hlk : lastKnown (l.take (i + 1)) with
  | some v => rfl
  | none =>
    have hpref : ∀ x ∈ l.take (i + 1), x = none := (lastKnown_eq_none_iff _).mp hlk
    have hdrop2 : (ffillCol none l).drop (i + 1) = ffillCol none (l.drop (i + 1)) :=
      ffillCol_drop_of_none (i + 1) l hpref
    rw [hdrop2, firstKnown_ffillCol]

theorem ffbf_all_none (l : List (Option ℚ)) (h : ∀ x ∈ l, x = none) :
    bfillCol (ffillCol none l) = l := by
  apply List.ext_getElem?
  intro i
  by_cases hi : i < l.length
  · rw [ffbf_getElem? l i hi]
    have h1 : lastKnown (l.take (i + 1)) = none :=
      (lastKnown_eq_none_iff _).mpr (fun x hx => h x (List.mem_of_mem_take hx))
    have h2 : firstKnown (l.drop (i + 1)) = none :=
      (firstKnown_eq_none_iff _).mpr (fun x hx => h x (List.mem_of_mem_drop hx))
    rw [h1, h2, List.getElem?_eq_getElem hi]
    have := h l[i] (List.getElem_mem hi)
    rw [this]
    rfl
  · have hl1 : (bfillCol (ffillCol none l)).length ≤ i := by
      rw [length_bfillCol, length_ffillCol]; omega
    rw [List.getElem?_eq_none hl1, List.getElem?_eq_none (by omega)]

theorem ffbf_idem (l : List (Option ℚ)) :
    bfillCol (ffillCol none (bfillCol (ffillCol none l)))
      = bfillCol (ffillCol none l) := by
  by_cases hall : ∀ x ∈ l, x = none
  · rw [ffbf_all_none l hall, ffbf_all_none l hall]
  · have hlen : (bfillCol (ffillCol none l)).length = l.length := by
      rw [length_bfillCol, length_ffillCol]
    apply List.ext_getElem?
    intro i
    by_cases hi : i < l.length
    · rw [ffbf_getElem? _ i (by rw [hlen]; exact hi)]
      have hsome : ∃ v, (bfillCol (ffillCol none l))[i]? = some (some v) := by
        rw [ffbf_getElem? l i hi]
        push_neg at hall
        obtain ⟨x, hx, hxne⟩ := hall
        rw [← List.take_append_drop (i + 1) l] at hx
        rcases List.mem_append.mp hx with hx1 | hx2
        · have h1 : lastKnown (l.take (i + 1)) ≠ none := fun hnone =>
            hxne ((lastKnown_eq_none_iff _).mp hnone x hx1)
          obtain ⟨u, hu⟩ := Option.ne_none_iff_exists.mp h1
          rw [← hu]
          exact ⟨u, rfl⟩
        · cases h1 : lastKnown (l.take (i + 1)) with
          | some u => exact ⟨u, rfl⟩
          | none =>
            have h2 : firstKnown (l.drop (i + 1)) ≠ none := fun hnone =>
              hxne ((firstKnown_eq_none_iff _).mp hnone x hx2)
            obtain ⟨u, hu⟩ := Option.ne_none_iff_exists.mp h2
            rw [← hu]
            exact ⟨u, rfl⟩
      obtain ⟨v, hv⟩ := hsome
      have hcell : (bfillCol (ffillCol none l))[i] = some v := by
        have := List.getElem?_eq_getElem (show i < (bfillCol (ffillCol none l)).length by
          rw [hlen]; exact hi)
        rw [this] at hv
        exact Option.some_injective _ hv
      have htake : (bfillCol (ffillCol none l)).take (i + 1)
          = (bfillCol (ffillCol none l)).take i ++ [some v] := by
        rw [List.take_succ]
        congr 1
        rw [List.getElem?_eq_getElem (show i < (bfillCol (ffillCol none l)).length by
          rw [hlen]; exact hi), hcell]
        rfl
      rw [htake, lastKnown_concat_some, hv]
      rfl
    · rw [List.getElem?_eq_none, List.getElem?_eq_none]
      · rw [hlen]; omega
      · rw [length_bfillCol, length_ffillCol, hlen]; omega

/-! ## Table-level fill lemmas -/

theorem length_ffillRow (r : List (Option ℚ)) :
    ∀ c, (ffillRow r c).length = r.length := by
  induction r with
  | nil => intro c; cases c <;> rfl
  | cons x xs ih =>
    intro c
    cases c with
    | nil => simp [ffillRow, ih]
    | cons l ls => simp [ffillRow, ih]

theorem length_ffillRows (rows : List (List (Option ℚ))) :
    ∀ carry, (ffillRows carry rows).length = rows.length := by
  induction rows with
  | nil => intro carry; rfl
  | cons r rs ih => intro carry; simp [ffillRows, ih]

theorem length_bfillRows (rows : List (List (Option ℚ))) :
    (bfillRows rows).length = rows.length := by
  rw [bfillRows, List.length_reverse, length_ffillRows, List.length_reverse]

theorem ffillRow_getD (r : List (Option ℚ)) :
    ∀ (c : List (Option ℚ)) (j : ℕ), j < r.length →
      (ffillRow r c).getD j none = oor (r.getD j none) (c.getD j none) := by
  induction r with
  | nil => intro c j hj; simp at hj
  | cons x xs ih =>
    intro c j hj
    cases c with
    | nil =>
      cases j with
      | zero => simp [ffillRow, oor_none_right]
      | succ j =>
        have hj2 : j < xs.length := by simpa using hj
        simp only [ffillRow, List.getD_cons_succ]
        rw [ih [] j hj2]
        simp
    | cons l ls =>
      cases j with
      | zero => simp [ffillRow]
      | succ j =>
        have hj2 : j < xs.length := by simpa using hj
        simp only [ffillRow, List.getD_cons_succ]
        exact ih ls j hj2

theorem colJ_cons (j : ℕ) (r : List (Option ℚ)) (rs : List (List (Option ℚ))) :
    colJ j (r :: rs) = r.getD j none :: colJ j rs := rfl

theorem colJ_ffillRows (j : ℕ) (rows : List (List (Option ℚ))) :
    ∀ carry, (∀ r ∈ rows, j < r.length) →
      colJ j (ffillRows carry rows) = ffillCol (carry.getD j none) (colJ j rows) := by
  induction rows with
  | nil => intro carry _; rfl
  | cons r rs ih =>
    intro carry h
    have hr : j < r.length := h r (by simp)
    have hrs : ∀ x ∈ rs, j < x.length := fun x hx => h x (by simp [hx])
    simp only [ffillRows, colJ_cons]
    rw [ih (ffillRow r carry) hrs, ffillRow_getD r carry j hr]
    rfl

theorem colJ_reverse (j : ℕ) (rows : List (List (Option ℚ))) :
    colJ j rows.reverse = (colJ j rows).reverse := by
  simp [colJ, List.map_reverse]

theorem colJ_ffillRows_nil (j : ℕ) (rows : List (List (Option ℚ)))
    (h : ∀ r ∈ rows, j < r.length) :
    colJ j (ffillRows [] rows) = ffillCol none (colJ j rows) := by
  rw [colJ_ffillRows j rows [] h]
  rfl

theorem colJ_bfillRows (j : ℕ) (rows : List (List (Option ℚ)))
    (h : ∀ r ∈ rows, j < r.length) :
    colJ j (bfillRows rows) = bfillCol (colJ j rows) := by
  rw [bfillRows, colJ_reverse, colJ_ffillRows_nil j rows.reverse
    (fun r hr => h r (List.mem_reverse.mp hr)), colJ_reverse, bfillCol]

theorem ffillRows_getElem?_length (rows : List (List (Option ℚ))) :
    ∀ (carry : List (Option ℚ)) (i : ℕ), ((ffillRows carry rows)[i]?).map List.length
      = (rows[i]?).map List.length := by
  induction rows with
  | nil => intro carry i; rfl
  | cons r rs ih =>
    intro carry i
    cases i with
    | zero => simp [ffillRows, length_ffillRow]
    | succ i => simp only [ffillRows, List.getElem?_cons_succ]; exact ih _ i

theorem bfillRows_getElem?_length (rows : List (List (Option ℚ))) (i : ℕ) :
    ((bfillRows rows)[i]?).map List.length = (rows[i]?).map List.length := by
  by_cases hi : i < rows.length
  · have h1 : i < (bfillRows rows).length := by rw [length_bfillRows]; exact hi
    rw [bfillRows] at h1 ⊢
    rw [List.getElem?_reverse (by simpa [length_ffillRows] using hi)]
    rw [length_ffillRows, List.length_reverse]
    rw [ffillRows_getElem?_length]
    rw [List.getElem?_reverse (by omega)]
    congr 2
    omega
  · rw [List.getElem?_eq_none (by rw [length_bfillRows]; omega),
      List.getElem?_eq_none (by omega)]

theorem width_mem_ffillRows (rows : List (List (Option ℚ))) (ncols : ℕ)
    (h : ∀ r ∈ rows, r.length = ncols) :
    ∀ r ∈ ffillRows [] rows, r.length = ncols := by
  intro r hr
  obtain ⟨i, hi⟩ := List.mem_iff_getElem?.mp hr
  have h2 := ffillRows_getElem?_length rows [] i
  rw [hi] at h2
  cases hrow : rows[i]? with
  | none => rw [hrow] at h2; exact absurd h2 (by simp)
  | some r0 =>
    rw [hrow] at h2
    have h3 : r.length = r0.length := by simpa using h2
    rw [h3]
    exact h r0 (List.mem_iff_getElem?.mpr ⟨i, hrow⟩)

theorem width_mem_bfillRows (rows : List (List (Option ℚ))) (ncols : ℕ)
    (h : ∀ r ∈ rows, r.length = ncols) :
    ∀ r ∈ bfillRows rows, r.length = ncols := by
  intro r hr
  obtain ⟨i, hi⟩ := List.mem_iff_getElem?.mp hr
  have h2 := bfillRows_getElem?_length rows i
  rw [hi] at h2
  cases hrow : rows[i]? with
  | none => rw [hrow] at h2; exact absurd h2 (by simp)
  | some r0 =>
    rw [hrow] at h2
    have h3 : r.length = r0.length := by simpa using h2
    rw [h3]
    exact h r0 (List.mem_iff_getElem?.mpr ⟨i, hrow⟩)

theorem width_fills (rows : List (List (Option ℚ))) (ncols : ℕ)
    (h : ∀ r ∈ rows, r.length = ncols) :
    ∀ r ∈ bfillRows (ffillRows [] rows), r.length = ncols :=
  width_mem_bfillRows _ _ (width_mem_ffillRows _ _ h)

theorem rows_ext_by_cols (A B : List (List (Option ℚ))) (ncols : ℕ)
    (hlen : A.length = B.length)
    (hwA : ∀ r ∈ A, r.length = ncols) (hwB : ∀ r ∈ B, r.length = ncols)
    (hcol : ∀ j, j < ncols → colJ j A = colJ j B) : A = B := by
  apply List.ext_getElem?
  intro i
  by_cases hi : i < A.length
  · have hiB : i < B.length := by omega
    rw [List.getElem?_eq_getElem hi, List.getElem?_eq_getElem hiB]
    congr 1
    apply List.ext_getElem?
    intro j
    have hwa : A[i].length = ncols := hwA _ (List.getElem_mem hi)
    have hwb : B[i].length = ncols := hwB _ (List.getElem_mem hiB)
    by_cases hj : j < ncols
    · have e1 : (colJ j A)[i]? = some (A[i].getD j none) := by
        rw [colJ, List.getElem?_map, List.getElem?_eq_getElem hi]
        rfl
      have e2 : (colJ j B)[i]? = some (B[i].getD j none) := by
        rw [colJ, List.getElem?_map, List.getElem?_eq_getElem hiB]
        rfl
      have e3 : A[i].getD j none = B[i].getD j none := by
        have := hcol j hj
        rw [this] at e1
        rw [e1] at e2
        exact Option.some_injective _ e2
      rw [List.getElem?_eq_getElem (by omega : j < A[i].length),
        List.getElem?_eq_getElem (by omega : j < B[i].length)]
      have ga : A[i][j] = A[i].getD j none := by
        rw [List.getD_eq_getElem?_getD, List.getElem?_eq_getElem (by omega : j < A[i].length)]
        rfl
      have gb : B[i][j] = B[i].getD j none := by
        rw [List.getD_eq_getElem?_getD, List.getElem?_eq_getElem (by omega : j < B[i].length)]
        rfl
      rw [ga, gb, e3]
    · rw [List.getElem?_eq_none (by omega), List.getElem?_eq_none (by omega)]
  · rw [List.getElem?_eq_none (by omega), List.getElem?_eq_none (by omega)]

theorem fill_missing_csi_fst (t : List (ℚ × List (Option ℚ))) :
    (fill_missing_csi t).map Prod.fst = (sortByTs t).map Prod.fst := by
  rw [fill_missing_csi]
  apply List.map_fst_zip
  rw [length_bfillRows, length_ffillRows]
  simp

theorem fill_missing_csi_snd (t : List (ℚ × List (Option ℚ))) :
    (fill_missing_csi t).map Prod.snd
      = bfillRows (ffillRows [] ((sortByTs t).map Prod.snd)) := by
  rw [fill_missing_csi]
  apply List.map_snd_zip
  rw [length_bfillRows, length_ffillRows]
  simp

theorem length_fill_missing_csi (t : List (ℚ × List (Option ℚ))) :
    (fill_missing_csi t).length = t.length := by
  have := congrArg List.length (fill_missing_csi_fst t)
  simpa [sortByTs] using this

/-- Claim C3: `fill_missing_csi` fills column-independently, forward
then backward: every cell of the sorted table becomes the last known
value at or before it in its column, else the next known value after it;
a column that is entirely missing stays entirely missing. -/
theorem c3_fill_missing_csi_policy (t : List (ℚ × List (Option ℚ))) (ncols : ℕ)
    (hw : ∀ r ∈ t, r.2.length = ncols) (j : ℕ) (hj : j < ncols)
    (i : ℕ) (hi : i < t.length) :
    (colJ j ((fill_missing_csi t).map Prod.snd))[i]?
      = some (oor (lastKnown ((colJ j ((sortByTs t).map Prod.snd)).take (i + 1)))
                  (firstKnown ((colJ j ((sortByTs t).map Prod.snd)).drop (i + 1)))) ∧
    ((∀ c ∈ colJ j (t.map Prod.snd), c = none) →
       ∀ c ∈ colJ j ((fill_missing_csi t).map Prod.snd), c = none) := by
  have hwS : ∀ r ∈ (sortByTs t).map Prod.snd, r.length = ncols := by
    intro r hr
    obtain ⟨p, hp, hpe⟩ := List.mem_map.mp hr
    have : p ∈ t := (List.perm_insertionSort _ t).mem_iff.mp hp
    rw [← hpe]
    exact hw p this
  have hwS2 : ∀ r ∈ (sortByTs t).map Prod.snd, j < r.length := by
    intro r hr; rw [hwS r hr]; exact hj
  have hwF : ∀ r ∈ ffillRows [] ((sortByTs t).map Prod.snd), j < r.length := by
    intro r hr
    rw [width_mem_ffillRows _ ncols hwS r hr]
    exact hj
  have hcols : colJ j ((fill_missing_csi t).map Prod.snd)
      = bfillCol (ffillCol none (colJ j ((sortByTs t).map Prod.snd))) := by
    rw [fill_missing_csi_snd, colJ_bfillRows j _ hwF,
      colJ_ffillRows_nil j _ hwS2]
  have hlenS : (colJ j ((sortByTs t).map Prod.snd)).length = t.length := by
    simp [colJ, sortByTs]
  constructor
  · rw [hcols]
    exact ffbf_getElem? _ i (by rw [hlenS]; exact hi)
  · intro hall
    have hallS : ∀ c ∈ colJ j ((sortByTs t).map Prod.snd), c = none := by
      intro c hc
      apply hall
      have hperm : (colJ j ((sortByTs t).map Prod.snd)).Perm
          (colJ j (t.map Prod.snd)) := by
        apply List.Perm.map
        exact (List.perm_insertionSort _ t).map Prod.snd
      exact hperm.mem_iff.mp hc
    rw [hcols, ffbf_all_none _ hallS]
    exact hallS

/-- Witness for C3 on a concrete three-row, one-column table: the
missing first cell inherits the next known value. -/
theorem c3_witness :
    (colJ 0 ((fill_missing_csi [((1:ℚ), [none]), (2, [some 5]), (3, [none])]).map Prod.snd))[0]?
      = some (oor (lastKnown ((colJ 0 ((sortByTs [((1:ℚ), [none]), (2, [some 5]), (3, [none])]).map Prod.snd)).take 1))
                  (firstKnown ((colJ 0 ((sortByTs [((1:ℚ), [none]), (2, [some 5]), (3, [none])]).map Prod.snd)).drop 1))) := by
  exact (c3_fill_missing_csi_policy [((1:ℚ), [none]), (2, [some 5]), (3, [none])] 1
    (by decide) 0 (by decide) 0 (by decide)).1

/-! ## Claim C4: idempotence of the gap fillers -/

theorem ffillRow_all_some (r : List (Option ℚ)) (h : ∀ x ∈ r, x ≠ none) :
    ∀ c, ffillRow r c = r := by
  induction r with
  | nil => intro c; cases c <;> rfl
  | cons x xs ih =>
    intro c
    have hx : x ≠ none := h x (by simp)
    obtain ⟨v, hv⟩ := Option.ne_none_iff_exists.mp hx
    have hxs : ∀ y ∈ xs, y ≠ none := fun y hy => h y (by simp [hy])
    cases c with
    | nil => simp [ffillRow, ih hxs]
    | cons l ls => simp [ffillRow, ih hxs, ← hv, oor]

theorem ffillRows_all_some (rows : List (List (Option ℚ)))
    (h : ∀ r ∈ rows, ∀ x ∈ r, x ≠ none) :
    ∀ carry, ffillRows carry rows = rows := by
  induction rows with
  | nil => intro carry; rfl
  | cons r rs ih =>
    intro carry
    have hr := h r (by simp)
    have hrs : ∀ r0 ∈ rs, ∀ x ∈ r0, x ≠ none := fun r0 h0 => h r0 (by simp [h0])
    simp only [ffillRows, ffillRow_all_some r hr]
    rw [ih hrs]

theorem bfillRows_all_some (rows : List (List (Option ℚ)))
    (h : ∀ r ∈ rows, ∀ x ∈ r, x ≠ none) :
    bfillRows rows = rows := by
  rw [bfillRows, ffillRows_all_some _ (fun r hr => h r (List.mem_reverse.mp hr)),
    List.reverse_reverse]

theorem zip_map_fst_snd {β : Type} (l : List (ℚ × β)) :
    (l.map Prod.fst).zip (l.map Prod.snd) = l := by
  induction l with
  | nil => rfl
  | cons p ps ih => simp [List.zip_cons_cons, ih]

/-- The fillers sort their input; the filled table is sorted by
timestamp, so sorting it again is the identity. -/
theorem sortByTs_fill_missing_csi (t : List (ℚ × List (Option ℚ))) :
    sortByTs (fill_missing_csi t) = fill_missing_csi t := by
  apply List.Sorted.insertionSort_eq
  have hfst : (fill_missing_csi t).map Prod.fst = (sortByTs t).map Prod.fst :=
    fill_missing_csi_fst t
  have hsorted : List.Sorted (fun a b => a ≤ b) ((fill_missing_csi t).map Prod.fst) := by
    rw [hfst]
    have := List.sorted_insertionSort (fun (a b : ℚ × List (Option ℚ)) => a.1 ≤ b.1) t
    exact (List.pairwise_map).mpr this
  exact (List.pairwise_map).mp hsorted

/-- Claim C4: gap filling is idempotent: on a table with no missing
cells both fillers only sort by timestamp, and applying either filler
twice equals applying it once. -/
theorem c4_gap_filling_idempotent (t : List (ℚ × List (Option ℚ))) (ncols : ℕ)
    (u : List (ℚ × Option ℚ)) (hw : ∀ r ∈ t, r.2.length = ncols) :
    ((∀ p ∈ t, ∀ c ∈ p.2, c ≠ none) → fill_missing_csi t = sortByTs t) ∧
    fill_missing_csi (fill_missing_csi t) = fill_missing_csi t ∧
    ((∀ p ∈ u, p.2 ≠ none) → fill_missing_bitrate u = sortByTs u) ∧
    fill_missing_bitrate (fill_missing_bitrate u) = fill_missing_bitrate u := by
  refine ⟨?_, ?_, ?_, ?_⟩
  · intro hfull
    have hfullS : ∀ r ∈ (sortByTs t).map Prod.snd, ∀ x ∈ r, x ≠ none := by
      intro r hr
      obtain ⟨p, hp, hpe⟩ := List.mem_map.mp hr
      have : p ∈ t := (List.perm_insertionSort _ t).mem_iff.mp hp
      rw [← hpe]
      exact hfull p this
    rw [fill_missing_csi, ffillRows_all_some _ hfullS, bfillRows_all_some _ hfullS,
      zip_map_fst_snd]
  · have hsort := sortByTs_fill_missing_csi t
    have hwF : ∀ r ∈ (fill_missing_csi t).map Prod.snd, r.length = ncols := by
      rw [fill_missing_csi_snd]
      apply width_fills
      intro r hr
      obtain ⟨p, hp, hpe⟩ := List.mem_map.mp hr
      have : p ∈ t := (List.perm_insertionSort _ t).mem_iff.mp hp
      rw [← hpe]
      exact hw p this
    have hcells : bfillRows (ffillRows [] ((fill_missing_csi t).map Prod.snd))
        = (fill_missing_csi t).map Prod.snd := by
      have hwS : ∀ r ∈ (sortByTs t).map Prod.snd, r.length = ncols := by
        intro r hr
        obtain ⟨p, hp, hpe⟩ := List.mem_map.mp hr
        have : p ∈ t := (List.perm_insertionSort _ t).mem_iff.mp hp
        rw [← hpe]
        exact hw p this
      apply rows_ext_by_cols _ _ ncols
      · rw [length_bfillRows, length_ffillRows]
      · apply width_fills _ _ hwF
      · exact hwF
      · intro j hj
        have hjS : ∀ r ∈ (sortByTs t).map Prod.snd, j < r.length := by
          intro r hr; rw [hwS r hr]; exact hj
        have hjF : ∀ r ∈ (fill_missing_csi t).map Prod.snd, j < r.length := by
          intro r hr; rw [hwF r hr]; exact hj
        have hjFF : ∀ r ∈ ffillRows [] ((fill_missing_csi t).map Prod.snd), j < r.length := by
          intro r hr
          rw [width_mem_ffillRows _ ncols hwF r hr]
          exact hj
        have hjFS : ∀ r ∈ ffillRows [] ((sortByTs t).map Prod.snd), j < r.length := by
          intro r hr
          rw [width_mem_ffillRows _ ncols hwS r hr]
          exact hj
        have hF : colJ j ((fill_missing_csi t).map Prod.snd)
            = bfillCol (ffillCol none (colJ j ((sortByTs t).map Prod.snd))) := by
          rw [fill_missing_csi_snd, colJ_bfillRows j _ hjFS, colJ_ffillRows_nil j _ hjS]
        rw [colJ_bfillRows j _ hjFF, colJ_ffillRows_nil j _ hjF, hF]
        exact ffbf_idem _
    rw [fill_missing_csi, hsort, hcells, zip_map_fst_snd]
  · intro hfull
    rw [fill_missing_bitrate]
    have hpt : ∀ p ∈ sortByTs u, (p.1, some (p.2.getD 0)) = p := by
      intro p hp
      have hpu : p ∈ u := (List.perm_insertionSort _ u).mem_iff.mp hp
      obtain ⟨v, hv⟩ := Option.ne_none_iff_exists.mp (hfull p hpu)
      calc (p.1, some (p.2.getD 0)) = (p.1, p.2) := by rw [← hv, Option.getD_some]
        _ = p := rfl
    rw [List.map_congr_left hpt]
    simp
  · have hsorted : List.Sorted (fun (a b : ℚ × Option ℚ) => a.1 ≤ b.1)
        (fill_missing_bitrate u) := by
      rw [fill_missing_bitrate]
      have hs := List.sorted_insertionSort (fun (a b : ℚ × Option ℚ) => a.1 ≤ b.1) u
      exact List.Pairwise.map _ (fun a b h => h) hs
    have hse : sortByTs (fill_missing_bitrate u) = fill_missing_bitrate u :=
      hsorted.insertionSort_eq
    conv_lhs => rw [fill_missing_bitrate, hse, fill_missing_bitrate]
    conv_rhs => rw [fill_missing_bitrate]
    rw [List.map_map]
    apply List.map_congr_left
    intro p _
    rfl

/-- Witness for C4 on concrete fully-known tables. -/
theorem c4_witness :
    fill_missing_csi [((1:ℚ), [some 4]), (2, [some 5])]
      = sortByTs [((1:ℚ), [some 4]), (2, [some 5])] ∧
    fill_missing_csi (fill_missing_csi [((1:ℚ), [some 4]), (2, [some 5])])
      = fill_missing_csi [((1:ℚ), [some 4]), (2, [some 5])] ∧
    fill_missing_bitrate [((1:ℚ), some 7), (2, some 8)]
      = sortByTs [((1:ℚ), some 7), (2, some 8)] ∧
    fill_missing_bitrate (fill_missing_bitrate [((1:ℚ), some 7), (2, some 8)])
      = fill_missing_bitrate [((1:ℚ), some 7), (2, some 8)] := by
  have h := c4_gap_filling_idempotent [((1:ℚ), [some 4]), (2, [some 5])] 1
    [((1:ℚ), some 7), (2, some 8)] (by decide)
  exact ⟨h.1 (by decide), h.2.1, h.2.2.1 (by decide), h.2.2.2⟩

/-! ## Claim C9: fills never manufacture a timestamp -/

/-- Claim C9: both gap fillers preserve the row count and the multiset
of timestamps, returning rows sorted ascending by timestamp. -/
theorem c9_fills_preserve_timestamps (t : List (ℚ × List (Option ℚ)))
    (u : List (ℚ × Option ℚ)) :
    (fill_missing_csi t).length = t.length ∧
    ((fill_missing_csi t).map Prod.fst).Perm (t.map Prod.fst) ∧
    List.Sorted (fun a b => a ≤ b) ((fill_missing_csi t).map Prod.fst) ∧
    (fill_missing_bitrate u).length = u.length ∧
    ((fill_missing_bitrate u).map Prod.fst).Perm (u.map Prod.fst) ∧
    List.Sorted (fun a b => a ≤ b) ((fill_missing_bitrate u).map Prod.fst) := by
  refine ⟨length_fill_missing_csi t, ?_, ?_, ?_, ?_, ?_⟩
  · rw [fill_missing_csi_fst]
    exact ((List.perm_insertionSort _ t).map Prod.fst)
  · rw [fill_missing_csi_fst]
    have := List.sorted_insertionSort (fun (a b : ℚ × List (Option ℚ)) => a.1 ≤ b.1) t
    exact (List.pairwise_map).mpr this
  · rw [fill_missing_bitrate]
    simp [sortByTs]
  · rw [fill_missing_bitrate]
    have h1 : ((sortByTs u).map (fun p => (p.1, some (p.2.getD 0)))).map Prod.fst
        = (sortByTs u).map Prod.fst := by
      rw [List.map_map]
      rfl
    rw [h1]
    exact ((List.perm_insertionSort _ u).map Prod.fst)
  · rw [fill_missing_bitrate]
    have h1 : ((sortByTs u).map (fun p => (p.1, some (p.2.getD 0)))).map Prod.fst
        = (sortByTs u).map Prod.fst := by
      rw [List.map_map]
      rfl
    rw [h1]
    have := List.sorted_insertionSort (fun (a b : ℚ × Option ℚ) => a.1 ≤ b.1) u
    exact (List.pairwise_map).mpr this

/-! ## Alignment lemmas: timeline length, group lookup -/

theorem foldl_min_mem (rs : List ℚ) : ∀ r, rs.foldl min r ∈ r :: rs := by
  induction rs with
  | nil => intro r; simp
  | cons a rs ih =>
    intro r
    have h1 := ih (min r a)
    simp only [List.foldl_cons]
    rcases List.mem_cons.mp h1 with h | h
    · rw [h]
      rcases min_choice r a with hc | hc <;> rw [hc] <;> simp
    · simp [h]

theorem foldl_min_le (rs : List ℚ) : ∀ r, ∀ x ∈ r :: rs, rs.foldl min r ≤ x := by
  induction rs with
  | nil =>
    intro r x hx
    have hxr : x = r := by simpa using hx
    simp [hxr]
  | cons a rs ih =>
    intro r x hx
    simp only [List.foldl_cons]
    have hle : rs.foldl min (min r a) ≤ min r a := ih (min r a) (min r a) (by simp)
    rcases List.mem_cons.mp hx with hxr | hxm
    · exact le_trans (le_trans hle (min_le_left r a)) (le_of_eq hxr.symm)
    · rcases List.mem_cons.mp hxm with hxa | hxs
      · exact le_trans (le_trans hle (min_le_right r a)) (le_of_eq hxa.symm)
      · exact ih (min r a) x (by simp [hxs])

theorem foldl_max_mem (rs : List ℚ) : ∀ r, rs.foldl max r ∈ r :: rs := by
  induction rs with
  | nil => intro r; simp
  | cons a rs ih =>
    intro r
    have h1 := ih (max r a)
    simp only [List.foldl_cons]
    rcases List.mem_cons.mp h1 with h | h
    · rw [h]
      rcases max_choice r a with hc | hc <;> rw [hc] <;> simp
    · simp [h]

theorem le_foldl_max (rs : List ℚ) : ∀ r, ∀ x ∈ r :: rs, x ≤ rs.foldl max r := by
  induction rs with
  | nil =>
    intro r x hx
    have hxr : x = r := by simpa using hx
    simp [hxr]
  | cons a rs ih =>
    intro r x hx
    simp only [List.foldl_cons]
    have hle : max r a ≤ rs.foldl max (max r a) := ih (max r a) (max r a) (by simp)
    rcases List.mem_cons.mp hx with hxr | hxm
    · exact le_trans (le_of_eq hxr) (le_trans (le_max_left r a) hle)
    · rcases List.mem_cons.mp hxm with hxa | hxs
      · exact le_trans (le_of_eq hxa) (le_trans (le_max_right r a) hle)
      · exact ih (max r a) x (by simp [hxs])

theorem listMin_mem (l : List ℚ) (hne : l ≠ []) : listMin l ∈ l := by
  cases l with
  | nil => exact absurd rfl hne
  | cons r rs => exact foldl_min_mem rs r

theorem listMin_le (l : List ℚ) (x : ℚ) (hx : x ∈ l) : listMin l ≤ x := by
  cases l with
  | nil => simp at hx
  | cons r rs => exact foldl_min_le rs r x hx

theorem listMax_mem (l : List ℚ) (hne : l ≠ []) : listMax l ∈ l := by
  cases l with
  | nil => exact absurd rfl hne
  | cons r rs => exact foldl_max_mem rs r

theorem le_listMax (l : List ℚ) (x : ℚ) (hx : x ∈ l) : x ≤ listMax l := by
  cases l with
  | nil => simp at hx
  | cons r rs => exact le_foldl_max rs r x hx

theorem arange_length (lo hi step : ℚ) :
    (arange lo hi step).length = (⌈(hi - lo) / step⌉).toNat := by
  simp [arange]

theorem timelineOf_eq (l : List ℚ) (dt : ℚ) (hne : l ≠ []) :
    timelineOf l dt = arange (listMin l) (listMax l + dt) dt := by
  cases l with
  | nil => exact absurd rfl hne
  | cons r rs => rfl

/-- The length of the reindexing timeline, in terms of the rounded
extremes: when every element of `l` is an integer multiple of `dt > 0`,
`np.arange(min, max + dt, dt)` has `floor((max - min)/dt) + 1` points. -/
theorem timelineOf_length (l : List ℚ) (dt : ℚ) (hdt : 0 < dt)
    (hmul : ∀ x ∈ l, ∃ k : ℤ, x = (k : ℚ) * dt) (hne : l ≠ []) :
    (timelineOf l dt).length = (⌊(listMax l - listMin l) / dt⌋ + 1).toNat := by
  obtain ⟨km, hm⟩ := hmul (listMin l) (listMin_mem l hne)
  obtain ⟨kM, hM⟩ := hmul (listMax l) (listMax_mem l hne)
  have hdt0 : dt ≠ 0 := ne_of_gt hdt
  have hdiff : (listMax l + dt - listMin l) / dt = ((kM - km + 1 : ℤ) : ℚ) := by
    rw [hm, hM]
    field_simp
    ring
  have hdiff2 : (listMax l - listMin l) / dt = ((kM - km : ℤ) : ℚ) := by
    rw [hm, hM]
    field_simp
    ring
  rw [timelineOf_eq l dt hne, arange_length, hdiff, hdiff2,
    Int.ceil_intCast, Int.floor_intCast]

theorem qlookup_keysMap_eq_none {α : Type} (g : ℚ) (keys : List ℚ) (f : ℚ → α)
    (hg : g ∉ keys) : qlookup g (keys.map (fun k => (k, f k))) = none := by
  induction keys with
  | nil => rfl
  | cons k ks ih =>
    have hk : ¬ (k = g) := fun h => hg (by simp [h])
    have hks : g ∉ ks := fun h => hg (by simp [h])
    simp only [List.map_cons, qlookup, hk, if_false]
    exact ih hks

theorem qlookup_keysMap_eq_some {α : Type} (g : ℚ) (keys : List ℚ) (f : ℚ → α)
    (hnd : keys.Nodup) (hg : g ∈ keys) :
    qlookup g (keys.map (fun k => (k, f k))) = some (f g) := by
  induction keys with
  | nil => simp at hg
  | cons k ks ih =>
    by_cases hk : k = g
    · subst hk
      simp [qlookup]
    · have hg2 : g ∈ ks := by
        rcases List.mem_cons.mp hg with h | h
        · exact absurd h.symm hk
        · exact h
      simp only [List.map_cons, qlookup, hk, if_false]
      exact ih (List.Nodup.of_cons hnd) hg2

theorem groupKeys_nodup (ts : List ℚ) : (groupKeys ts).Nodup :=
  List.nodup_dedup _

theorem mem_groupKeys (ts : List ℚ) (g : ℚ) : g ∈ groupKeys ts ↔ g ∈ ts := by
  rw [groupKeys, List.mem_dedup, List.mem_insertionSort]

/-! ## Claim C1: aligned grid row count and empty buckets -/

/-- Counterexample to C1 as stated: raw timestamps `0.04` and `0.06`
with interval `0.1` round to the two buckets `0` and `0.1`, so the grid
has 2 rows, while `floor((max_raw - min_raw)/interval) + 1
= floor(0.2) + 1 = 1`. -/
theorem c1_counterexample :
    align_csi_magnitude [[1], [2]] [(1:ℚ)/25, 3/50] (1/10) none "mean"
      = Except.ok [(0, [some 1]), (1/10, [some 2])] ∧
    (⌊(((3:ℚ)/50) - 1/25) / (1/10)⌋ + 1).toNat = 1 ∧ (1 : ℕ) ≠ 2 := by
  refine ⟨?_, by norm_num, by decide⟩
  have h1 : roundedTs ((1:ℚ)/25) (1/10) = 0 := by
    norm_num [roundedTs, roundHalfEven]
  have h2 : roundedTs ((3:ℚ)/50) (1/10) = 1/10 := by
    norm_num [roundedTs, roundHalfEven]
  have h3 : Int.toNat 2 = 2 := rfl
  norm_num [align_csi_magnitude, alignGrid, alignNcols, alignData, alignKeep,
    aggregationMethodError, h1, h2, groupKeys, timelineOf, arange, qlookup,
    aggCols, meanCols, List.insertionSort, List.orderedInsert, h3,
    List.range_succ, List.range_zero]

theorem alignGrid_row_fst (ncols : ℕ) (q : Option (List ℚ)) (g : ℚ) :
    (match q with
      | some vs => (g, vs.map some)
      | none => (g, List.replicate ncols (none : Option ℚ))).1 = g := by
  cases q <;> rfl

theorem bitrateGrid_row_fst (q : Option ℚ) (g : ℚ) :
    (match q with
      | some v => (g, some v)
      | none => (g, (none : Option ℚ))).1 = g := by
  cases q <;> rfl

/-- Claim C1 amended: for nonempty input, positive interval and a
supported aggregation method, both aligners succeed and produce a grid
with `floor((max_rounded - min_rounded)/interval) + 1` rows, where the
extremes are those of the rounded timestamps (as stated, with the raw
extremes, the count is wrong whenever rounding moves an extreme across a
bucket boundary); buckets hit by no raw sample carry the missing marker
in every value column. -/
theorem c1_grid_row_count (csi_data : List (List ℚ)) (ts : List ℚ) (dt : ℚ)
    (nSub : Option ℕ) (method : String) (df : List (ℚ × ℚ)) (h : ℚ)
    (hdt : 0 < dt) (hts : ts ≠ []) (hm : method = "mean" ∨ method = "first")
    (hdf : df ≠ []) :
    (∃ grid, align_csi_magnitude csi_data ts dt nSub method = Except.ok grid ∧
      grid.length
        = (⌊(listMax (ts.map (fun t0 => roundedTs t0 dt))
              - listMin (ts.map (fun t0 => roundedTs t0 dt))) / dt⌋ + 1).toNat ∧
      (∀ p ∈ grid, (∀ t0 ∈ ts, roundedTs t0 dt ≠ p.1) → ∀ c ∈ p.2, c = none)) ∧
    (∃ grid2, (calculate_bitrate_and_align df dt h).2 = Except.ok grid2 ∧
      grid2.length
        = (⌊(listMax (df.map (fun r => roundedTs r.1 dt))
              - listMin (df.map (fun r => roundedTs r.1 dt))) / dt⌋ + 1).toNat ∧
      (∀ p ∈ grid2, (∀ r ∈ df, roundedTs r.1 dt ≠ p.1) → p.2 = none)) := by
  constructor
  · have hne : (ts.map (fun t0 => roundedTs t0 dt)) ≠ [] := by
      simpa using hts
    have hok : align_csi_magnitude csi_data ts dt nSub method
        = Except.ok (alignGrid csi_data ts dt nSub method) := by
      rw [align_csi_magnitude]
      rw [if_neg (by rcases hm with h0 | h0 <;> simp [h0])]
      rw [if_neg (by simpa [List.isEmpty_iff] using hne)]
    refine ⟨alignGrid csi_data ts dt nSub method, hok, ?_, ?_⟩
    · rw [alignGrid, List.length_map]
      exact timelineOf_length _ dt hdt
        (by
          intro x hx
          obtain ⟨t0, _, ht0⟩ := List.mem_map.mp hx
          exact ⟨roundHalfEven (t0 / dt), ht0.symm⟩) hne
    · intro p hp hno c hc
      rw [alignGrid] at hp
      obtain ⟨g, _, hpe⟩ := List.mem_map.mp hp
      have hp1 : p.1 = g := by
        rw [← hpe]
        exact alignGrid_row_fst _ _ _
      have hmem : g ∉ (ts.map (fun t0 => roundedTs t0 dt)) := by
        intro hmem0
        obtain ⟨t0, ht0, hte⟩ := List.mem_map.mp hmem0
        exact hno t0 ht0 (by rw [hte, hp1])
      have hq : qlookup g ((groupKeys (ts.map (fun t0 => roundedTs t0 dt))).map
          (fun g2 => (g2, aggCols method (alignNcols csi_data nSub)
            ((((ts.map (fun t0 => roundedTs t0 dt)).zip
                (alignData csi_data nSub)).filter
              (fun p2 => decide (p2.1 = g2))).map Prod.snd)))) = none :=
        qlookup_keysMap_eq_none g _ _
          (fun hh => hmem ((mem_groupKeys _ _).mp hh))
      have hp2 : p.2 = List.replicate (alignNcols csi_data nSub) none := by
        rw [← hpe, hq]
      rw [hp2] at hc
      exact List.eq_of_mem_replicate hc
  · have hne : (df.map (fun r => roundedTs r.1 dt)) ≠ [] := by
      simpa using hdf
    have hok : (calculate_bitrate_and_align df dt h).2
        = Except.ok (bitrateGrid df dt h) := by
      rw [calculate_bitrate_and_align]
      simp only
      rw [if_neg (by simpa [List.isEmpty_iff] using hne)]
    refine ⟨bitrateGrid df dt h, hok, ?_, ?_⟩
    · rw [bitrateGrid, List.length_map]
      exact timelineOf_length _ dt hdt
        (by
          intro x hx
          obtain ⟨r, _, hr⟩ := List.mem_map.mp hx
          exact ⟨roundHalfEven (r.1 / dt), hr.symm⟩) hne
    · intro p hp hno
      rw [bitrateGrid] at hp
      obtain ⟨g, _, hpe⟩ := List.mem_map.mp hp
      have hp1 : p.1 = g := by
        rw [← hpe]
        exact bitrateGrid_row_fst _ _
      have hmem : g ∉ (df.map (fun r => roundedTs r.1 dt)) := by
        intro hmem0
        obtain ⟨r, hr, hre⟩ := List.mem_map.mp hmem0
        exact hno r hr (by rw [hre, hp1])
      have hq : qlookup g ((groupKeys (df.map (fun r => roundedTs r.1 dt))).map
          (fun g2 => (g2, (((adjustedWithTs df dt h).filter
              (fun r => decide (r.2.2 = g2))).map (fun r => r.2.1)).sum))) = none :=
        qlookup_keysMap_eq_none g _ _
          (fun hh => hmem ((mem_groupKeys _ _).mp hh))
      rw [← hpe, hq]

/-- Claim C5: every packet length has `header_adjust` subtracted
(negatives kept: the bucket value is the plain sum of differences, with
no clamping), and each non-empty bucket holds the sum of the adjusted
lengths of the records rounding to it; in particular lengths
`[100, 50]` both at `t = 1.23` with `header_adjust = 34` and interval
`0.1` yield the single bucket `1.2` holding `82`. -/
theorem c5_bitrate_payload_sum :
    (∀ (df : List (ℚ × ℚ)) (dt h : ℚ) (grid : List (ℚ × Option ℚ)),
       (calculate_bitrate_and_align df dt h).2 = Except.ok grid →
       ∀ p ∈ grid,
         df.filter (fun r => decide (roundedTs r.1 dt = p.1)) ≠ [] →
         p.2 = some (((df.filter (fun r => decide (roundedTs r.1 dt = p.1))).map
            (fun r => r.2 - h)).sum)) ∧
    (calculate_bitrate_and_align [((123:ℚ)/100, 100), (123/100, 50)] (1/10) 34).2
      = Except.ok [(6/5, some 82)] := by
  constructor
  · intro df dt h grid hok p hp hne
    have hgrid : grid = bitrateGrid df dt h := by
      rw [calculate_bitrate_and_align] at hok
      simp only at hok
      by_cases he : (df.map (fun p2 => roundedTs p2.1 dt)).isEmpty
      · rw [if_pos he] at hok
        exact absurd hok (by simp)
      · rw [if_neg he] at hok
        exact (Except.ok.injEq _ _ ▸ hok).symm
    subst hgrid
    rw [bitrateGrid] at hp
    obtain ⟨g, _, hpe⟩ := List.mem_map.mp hp
    have hp1 : p.1 = g := by
      rw [← hpe]
      exact bitrateGrid_row_fst _ _
    obtain ⟨r0, hr0, hr0e⟩ : ∃ r0 ∈ df, roundedTs r0.1 dt = g := by
      cases hf : df.filter (fun r => decide (roundedTs r.1 dt = p.1)) with
      | nil => exact absurd hf hne
      | cons x xs =>
        have hxf : x ∈ df.filter (fun r => decide (roundedTs r.1 dt = p.1)) := by
          rw [hf]
          simp
        refine ⟨x, List.mem_of_mem_filter hxf, ?_⟩
        have := List.of_mem_filter hxf
        rw [← hp1]
        exact of_decide_eq_true this
    have hgmem : g ∈ df.map (fun r => roundedTs r.1 dt) :=
      List.mem_map.mpr ⟨r0, hr0, hr0e⟩
    have hq : qlookup g ((groupKeys (df.map (fun r => roundedTs r.1 dt))).map
        (fun g2 => (g2, (((adjustedWithTs df dt h).filter
            (fun r => decide (r.2.2 = g2))).map (fun r => r.2.1)).sum)))
        = some ((((adjustedWithTs df dt h).filter
            (fun r => decide (r.2.2 = g))).map (fun r => r.2.1)).sum) :=
      qlookup_keysMap_eq_some g _ _ (groupKeys_nodup _)
        ((mem_groupKeys _ _).mpr hgmem)
    have hp2 : p.2 = some ((((adjustedWithTs df dt h).filter
        (fun r => decide (r.2.2 = g))).map (fun r => r.2.1)).sum) := by
      rw [← hpe, hq]
    rw [hp2, hp1]
    congr 1
    rw [adjustedWithTs, List.filter_map, List.map_map]
    rfl
  · have hr : roundedTs ((123:ℚ)/100) (1/10) = 6/5 := by
      norm_num [roundedTs, roundHalfEven]
    have h3 : Int.toNat 1 = 1 := rfl
    norm_num [calculate_bitrate_and_align, bitrateGrid, adjustedWithTs, hr,
      groupKeys, timelineOf, arange, qlookup, List.insertionSort,
      List.orderedInsert, h3, List.range_succ, List.range_zero]

/-- Witness for C5: the general bucket law applied to the scenario
bucket itself, whose value `82` is the sum of the adjusted lengths. -/
theorem c5_witness :
    ((6:ℚ)/5, (some (82:ℚ) : Option ℚ)).2
      = some ((([((123:ℚ)/100, (100:ℚ)), (123/100, 50)].filter
          (fun r => decide (roundedTs r.1 (1/10) = ((6:ℚ)/5, (some (82:ℚ) : Option ℚ)).1))).map
            (fun r => r.2 - 34)).sum) := by
  have h := c5_bitrate_payload_sum
  refine h.1 [((123:ℚ)/100, 100), (123/100, 50)] (1/10) 34 [(6/5, some 82)] h.2
    (6/5, some 82) (by simp) ?_
  have hr : roundedTs ((123:ℚ)/100) ((10:ℚ)⁻¹) = 6/5 := by
    norm_num [roundedTs, roundHalfEven]
  simp [hr]

/-! ## Claim C6: aggregation-method rejection -/

/-- Counterexample to C6 as stated: on empty input with the supported
method `"mean"`, `align_csi_magnitude` still raises (numpy `.min()` of
an empty array), so "raises an error iff the method is unsupported" is
false. -/
theorem c6_counterexample :
    ¬ ((∃ e, align_csi_magnitude [] [] 1 none "mean" = Except.error e)
        ↔ ("mean" ≠ "mean" ∧ "mean" ≠ "first")) := by
  intro hiff
  exact (hiff.mp ⟨emptyReductionError, rfl⟩).1 rfl

/-- Claim C6 amended: the unsupported-method rejection
(`ValueError` at utils.py line 60) is raised if and only if the
aggregation method is neither `"mean"` nor `"first"`; a supported method
never triggers this rejection (though empty input still raises a
different, numpy error, which falsifies the claim's plain
"raises an error iff" reading). -/
theorem c6_method_rejection_iff (csi_data : List (List ℚ)) (ts : List ℚ)
    (dt : ℚ) (nSub : Option ℕ) (method : String) :
    align_csi_magnitude csi_data ts dt nSub method
        = Except.error aggregationMethodError
      ↔ (method ≠ "mean" ∧ method ≠ "first") := by
  rw [align_csi_magnitude]
  by_cases hc : method ≠ "mean" ∧ method ≠ "first"
  · rw [if_pos hc]
    simp [hc]
  · rw [if_neg hc]
    by_cases he : (ts.map (fun t => roundedTs t dt)).isEmpty
    · rw [if_pos he]
      constructor
      · intro hcontra
        rw [Except.error.injEq] at hcontra
        exact absurd hcontra (by decide)
      · intro hcontra
        exact absurd hcontra hc
    · rw [if_neg he]
      constructor
      · intro hcontra
        exact absurd hcontra (by simp)
      · intro hcontra
        exact absurd hcontra hc

/-- Witness for the amended C1 at a one-sample input per aligner. -/
theorem c1_witness :
    (∃ grid, align_csi_magnitude [[(5:ℚ)]] [(0:ℚ)] 1 none "mean" = Except.ok grid ∧
      grid.length
        = (⌊(listMax ([(0:ℚ)].map (fun t0 => roundedTs t0 1))
              - listMin ([(0:ℚ)].map (fun t0 => roundedTs t0 1))) / 1⌋ + 1).toNat ∧
      (∀ p ∈ grid, (∀ t0 ∈ [(0:ℚ)], roundedTs t0 1 ≠ p.1) → ∀ c ∈ p.2, c = none)) ∧
    (∃ grid2, (calculate_bitrate_and_align [((0:ℚ), 40)] 1 34).2 = Except.ok grid2 ∧
      grid2.length
        = (⌊(listMax ([((0:ℚ), (40:ℚ))].map (fun r => roundedTs r.1 1))
              - listMin ([((0:ℚ), (40:ℚ))].map (fun r => roundedTs r.1 1))) / 1⌋ + 1).toNat ∧
      (∀ p ∈ grid2, (∀ r ∈ [((0:ℚ), (40:ℚ))], roundedTs r.1 1 ≠ p.1) → p.2 = none)) :=
  c1_grid_row_count [[(5:ℚ)]] [(0:ℚ)] 1 none "mean" [((0:ℚ), 40)] 34
    (by decide) (by decide) (Or.inl rfl) (by decide)

/-! ## Claim C7: inner join cardinality and order -/

theorem innerRows_nil (b : List (ℚ × ℚ)) : innerRows [] b = [] := rfl

theorem innerRows_cons (p : ℚ × ℚ) (rest b : List (ℚ × ℚ)) :
    innerRows (p :: rest) b
      = ((b.filter (fun q => decide (q.1 = p.1))).map
          (fun q => (p.1, some p.2, some q.2))) ++ innerRows rest b := rfl

theorem filter_key_nil_of_not_mem (b : List (ℚ × ℚ)) (t : ℚ)
    (ht : t ∉ b.map Prod.fst) : b.filter (fun q => decide (q.1 = t)) = [] := by
  rw [List.filter_eq_nil_iff]
  intro q hq hdec
  exact ht (List.mem_map.mpr ⟨q, hq, of_decide_eq_true hdec⟩)

theorem filter_key_length_le_one (b : List (ℚ × ℚ))
    (hb : (b.map Prod.fst).Nodup) (t : ℚ) :
    (b.filter (fun q => decide (q.1 = t))).length ≤ 1 := by
  induction b with
  | nil => simp
  | cons q rest ih =>
    rw [List.map_cons, List.nodup_cons] at hb
    by_cases hq : q.1 = t
    · rw [List.filter_cons_of_pos (by simpa using hq)]
      have hrest : rest.filter (fun q2 => decide (q2.1 = t)) = [] := by
        apply filter_key_nil_of_not_mem rest t
        rw [← hq]
        exact hb.1
      rw [hrest]
      simp
    · rw [List.filter_cons_of_neg (by simpa using hq)]
      exact ih hb.2

theorem filter_key_length_eq_one (b : List (ℚ × ℚ))
    (hb : (b.map Prod.fst).Nodup) (t : ℚ) (ht : t ∈ b.map Prod.fst) :
    (b.filter (fun q => decide (q.1 = t))).length = 1 := by
  induction b with
  | nil => simp at ht
  | cons q rest ih =>
    rw [List.map_cons, List.nodup_cons] at hb
    by_cases hq : q.1 = t
    · rw [List.filter_cons_of_pos (by simpa using hq)]
      have hrest : rest.filter (fun q2 => decide (q2.1 = t)) = [] := by
        apply filter_key_nil_of_not_mem rest t
        rw [← hq]
        exact hb.1
      rw [hrest]
      rfl
    · rw [List.filter_cons_of_neg (by simpa using hq)]
      rcases List.mem_cons.mp ht with h | h
      · exact absurd h.symm hq
      · exact ih hb.2 h

theorem innerRows_length_le_left (a b : List (ℚ × ℚ))
    (hb : (b.map Prod.fst).Nodup) : (innerRows a b).length ≤ a.length := by
  induction a with
  | nil => simp [innerRows_nil]
  | cons p rest ih =>
    rw [innerRows_cons, List.length_append, List.length_map, List.length_cons]
    have := filter_key_length_le_one b hb p.1
    omega

theorem innerRows_length_eq_filter (a b : List (ℚ × ℚ))
    (hb : (b.map Prod.fst).Nodup) :
    (innerRows a b).length
      = (a.filter (fun p => decide (p.1 ∈ b.map Prod.fst))).length := by
  induction a with
  | nil => simp [innerRows_nil]
  | cons p rest ih =>
    rw [innerRows_cons, List.length_append, List.length_map, ih]
    by_cases hp : p.1 ∈ b.map Prod.fst
    · rw [filter_key_length_eq_one b hb p.1 hp,
        List.filter_cons_of_pos (by simpa using hp)]
      simp only [List.length_cons]
      omega
    · rw [filter_key_nil_of_not_mem b p.1 hp,
        List.filter_cons_of_neg (by simpa using hp)]
      simp

theorem innerRows_length_le_right (a b : List (ℚ × ℚ))
    (ha : (a.map Prod.fst).Nodup) (hb : (b.map Prod.fst).Nodup) :
    (innerRows a b).length ≤ b.length := by
  rw [innerRows_length_eq_filter a b hb]
  have hsub : List.Sublist
      ((a.filter (fun p => decide (p.1 ∈ b.map Prod.fst))).map Prod.fst)
      (a.map Prod.fst) := (List.filter_sublist a).map Prod.fst
  have hnd : ((a.filter (fun p => decide (p.1 ∈ b.map Prod.fst))).map Prod.fst).Nodup :=
    ha.sublist hsub
  have hss : ((a.filter (fun p => decide (p.1 ∈ b.map Prod.fst))).map Prod.fst)
      ⊆ (b.map Prod.fst) := by
    intro x hx
    obtain ⟨q, hq, hqe⟩ := List.mem_map.mp hx
    have := List.of_mem_filter hq
    rw [← hqe]
    exact of_decide_eq_true this
  have hlen := (hnd.subperm hss).length_le
  rw [List.length_map] at hlen
  rw [List.length_map] at hlen
  exact le_trans hlen (le_of_eq rfl)

theorem innerRows_length_eq_of_keys_eq (a b : List (ℚ × ℚ))
    (hb : (b.map Prod.fst).Nodup) (hk : ∀ p ∈ a, p.1 ∈ b.map Prod.fst) :
    (innerRows a b).length = a.length := by
  rw [innerRows_length_eq_filter a b hb]
  have : a.filter (fun p => decide (p.1 ∈ b.map Prod.fst)) = a := by
    rw [List.filter_eq_self]
    intro p hp
    exact decide_eq_true (hk p hp)
  rw [this]

theorem join_features_inner_eq (a b : List (ℚ × ℚ)) :
    join_features a b "inner" = sortByTs (innerRows a b) := by
  rw [join_features]
  rw [if_neg (by decide : ¬ ("inner" : String) = "outer")]

/-- Claim C7: for feature series with strictly increasing timestamps,
the inner join has at most `min |a| |b|` rows, exactly `|a|` rows when
the two timestamp columns are identical, and the result is sorted
ascending by timestamp. -/
theorem c7_inner_join_cardinality (a b : List (ℚ × ℚ))
    (ha : (a.map Prod.fst).Pairwise (fun x y => x < y))
    (hb : (b.map Prod.fst).Pairwise (fun x y => x < y)) :
    (join_features a b "inner").length ≤ min a.length b.length ∧
    (a.map Prod.fst = b.map Prod.fst → (join_features a b "inner").length = a.length) ∧
    List.Sorted (fun x y => x ≤ y) ((join_features a b "inner").map Prod.fst) := by
  have hand : (a.map Prod.fst).Nodup := ha.imp (fun h => ne_of_lt h)
  have hbnd : (b.map Prod.fst).Nodup := hb.imp (fun h => ne_of_lt h)
  have hlen : (join_features a b "inner").length = (innerRows a b).length := by
    rw [join_features_inner_eq, sortByTs, List.length_insertionSort]
  refine ⟨?_, ?_, ?_⟩
  · rw [hlen]
    exact le_min (innerRows_length_le_left a b hbnd)
      (innerRows_length_le_right a b hand hbnd)
  · intro hk
    rw [hlen]
    apply innerRows_length_eq_of_keys_eq a b hbnd
    intro p hp
    rw [← hk]
    exact List.mem_map.mpr ⟨p, hp, rfl⟩
  · rw [join_features_inner_eq, sortByTs]
    have hs := List.sorted_insertionSort
      (fun (x y : ℚ × Option ℚ × Option ℚ) => x.1 ≤ y.1) (innerRows a b)
    exact (List.pairwise_map).mpr hs

/-- Witness for C7 on two-row series with identical timestamp columns:
the inner join keeps both rows, sorted. -/
theorem c7_witness :
    (join_features [((1:ℚ), 10), (2, 20)] [((1:ℚ), 5), (2, 7)] "inner").length
        ≤ min ([((1:ℚ), (10:ℚ)), (2, 20)] : List (ℚ × ℚ)).length
              ([((1:ℚ), (5:ℚ)), (2, 7)] : List (ℚ × ℚ)).length ∧
    (join_features [((1:ℚ), 10), (2, 20)] [((1:ℚ), 5), (2, 7)] "inner").length
        = ([((1:ℚ), (10:ℚ)), (2, 20)] : List (ℚ × ℚ)).length ∧
    List.Sorted (fun x y => x ≤ y)
      ((join_features [((1:ℚ), 10), (2, 20)] [((1:ℚ), 5), (2, 7)] "inner").map Prod.fst) := by
  have h := c7_inner_join_cardinality [((1:ℚ), 10), (2, 20)] [((1:ℚ), 5), (2, 7)]
    (by decide) (by decide)
  exact ⟨h.1, h.2.1 (by decide), h.2.2⟩

end SpydarSense
